import Mathlib

set_option autoImplicit false

/-!
Shallow embedding of `src/epub_rag_ingestor.py` (class `EPUBProcessor`):
record building, the chunking policy, the per-directory processing loop and
the batched, transactional upsert into the `epub_chunks` table.

External collaborators are embedded as follows:
* the embedding model (`SentenceTransformer.encode`) is an oracle
  `Embedder` returning either the vectors or a raised exception;
* PostgreSQL is a pair of table states (committed / pending transaction)
  driven by the statements the source issues, with a `fails` oracle for a
  statement that raises;
* the text splitter (`RecursiveCharacterTextSplitter`, langchain code that is
  not part of this repository) is modelled from the spec, see `split`.
-/

/-- A chunk embedding as persisted (`embedding.tolist()`, source line 129).
The numeric values of the vector components never matter to the properties
proved here, so components are carried as integers. -/
abbrev Embedding := List Int

/-- One element of `all_records` built in `EPUBProcessor.process_directory`
(source lines 123-131), equally one row of the `epub_chunks` table. -/
structure Record where
  chunk_id : String
  content : String
  book_title : String
  chunk_num : Nat
  embedding : Embedding
deriving DecidableEq

/-- The record literal built for chunk index `i` of a document
(source lines 124-130, in particular
`'chunk_id': f"{book_title}_chunk_{i}"`). -/
def mkRecord (book_title : String) (i : Nat) (chunk : String) (e : Embedding) : Record :=
  ⟨book_title ++ "_chunk_" ++ toString i, chunk, book_title, i, e⟩

/-- `for i, (chunk, embedding) in enumerate(zip(chunks, embeddings))`
(source line 123): walk the two lists in parallel — `zip` stops at the end of
the shorter one — with a running index `i`. -/
def buildGo (book_title : String) (i : Nat) : List String → List Embedding → List Record
  | [], _ => []
  | _ :: _, [] => []
  | c :: cs, e :: es => mkRecord book_title i c e :: buildGo book_title (i + 1) cs es

/-- The records one document contributes to `all_records`
(source lines 123-131). -/
def buildRecords (book_title : String) (chunks : List String) (embeddings : List Embedding) :
    List Record :=
  buildGo book_title 0 chunks embeddings

/-- `true` when every character of `s` is whitespace; in particular for `""`. -/
def isBlank (s : String) : Bool :=
  s.data.all (fun c => c.isWhitespace)

/-- Fixed-stride sliding windows of width `csize` with stride `dm1 + 1`:
emit the first `csize` characters, advance by the stride, repeat; the final
window may be shorter than `csize`. The `fuel` argument only drives the
structural recursion; any value `≥ s.length` gives the same result (each step
consumes at least one character), and `split` passes `s.length`. -/
def splitGo (csize dm1 : Nat) : Nat → List Char → List (List Char)
  | _, [] => []
  | 0, _ :: _ => []
  | fuel + 1, c :: cs =>
    if (c :: cs).length ≤ dm1 + 1 then [(c :: cs).take csize]
    else (c :: cs).take csize :: splitGo csize dm1 fuel ((c :: cs).drop (dm1 + 1))

/-- Modelled from the spec: the Chunker (`self.text_splitter.split_text`,
source line 117, implemented by langchain's `RecursiveCharacterTextSplitter`
whose code is not part of this repository). Spec section 4.1: overlapping
windows such that each window after the first begins `chunk_size - overlap`
characters past the start of the previous window, the final window possibly
shorter; empty or whitespace-only input yields an empty sequence. -/
def split (chunk_size overlap : Nat) (text : String) : List String :=
  if isBlank text then []
  else
    (splitGo chunk_size (chunk_size - overlap - 1) text.data.length text.data).map
      (fun l => String.mk l)

/-- The error kinds of spec section 7 that the embedded pipeline can signal. -/
inductive Err where
  | invalidConfig
  | embedding
  | persistence
deriving DecidableEq

deriving instance DecidableEq for Except

/-- One EPUB file of the input directory: its title (the filename without the
extension, source line 109) and the outcome of reading it —
`Except.ok text` for the joined chapter text, `Except.error ()` when
`epub.read_epub` or the HTML parsing raises. -/
structure DocInput where
  title : String
  raw : Except Unit String
deriving DecidableEq

/-- `EPUBProcessor.extract_text_from_epub` (source lines 84-100): any
exception is caught, logged and the empty string returned. -/
def extract_text_from_epub (d : DocInput) : String :=
  match d.raw with
  | Except.ok t => t
  | Except.error _ => ""

/-- The embedding model (`self.embedding_model.encode`, source line 120), an
external collaborator: either the vectors for a batch of chunk texts, or a
raised model/runtime exception. -/
abbrev Embedder := List String → Except Unit (List Embedding)

/-- The loop body of `EPUBProcessor.process_directory` for one EPUB file
(source lines 107-131): extract, `continue` when the text is empty, split
into chunks, encode — an exception raised there propagates, there is no
handler in the loop — and build the records. -/
def processDoc (chunk_size overlap : Nat) (embed : Embedder) (d : DocInput) :
    Except Err (List Record) :=
  let full_text := extract_text_from_epub d
  if full_text = "" then Except.ok []
  else
    match embed (split chunk_size overlap full_text) with
    | Except.error _ => Except.error Err.embedding
    | Except.ok embeddings =>
        Except.ok (buildRecords d.title (split chunk_size overlap full_text) embeddings)

/-- The whole `for epub_file in ...` loop of `process_directory`
(source lines 107-131): accumulates `all_records` across the files of the
directory; an exception that escapes the loop body aborts the loop. -/
def process_directory (chunk_size overlap : Nat) (embed : Embedder) :
    List DocInput → Except Err (List Record)
  | [] => Except.ok []
  | d :: ds =>
    match processDoc chunk_size overlap embed d with
    | Except.error e => Except.error e
    | Except.ok rs =>
      match process_directory chunk_size overlap embed ds with
      | Except.error e => Except.error e
      | Except.ok rest => Except.ok (rs ++ rest)

/-- The `epub_chunks` table: a list of rows keyed by `chunk_id`
(`chunk_id TEXT PRIMARY KEY`, source lines 67-75). -/
abbrev Store := List Record

/-- The `chunk_id` column of the table. -/
def chunkIds (s : Store) : List String :=
  s.map (fun r => r.chunk_id)

/-- One `INSERT ... ON CONFLICT (chunk_id) DO UPDATE SET ...` statement
(source lines 143-152): a row carrying the same `chunk_id` is replaced in
place, otherwise the record is appended as a new row. -/
def upsertOne (s : Store) (r : Record) : Store :=
  if r.chunk_id ∈ chunkIds s then
    s.map (fun row => if row.chunk_id = r.chunk_id then r else row)
  else s ++ [r]

/-- A batch of upsert statements executed in order. -/
def upsertBatch (s : Store) (rs : List Record) : Store :=
  rs.foldl upsertOne s

/-- The psycopg2 connection: the committed table contents and the pending
working state of the open transaction. `commit` publishes the pending state;
`rollback` discards it. -/
structure Conn where
  committed : Store
  pending : Store
deriving DecidableEq

/-- `execute_batch(cursor, insert_query, data, page_size=100)`
(source line 166) inside the open transaction: the upsert statement runs for
each record in order against the pending state; `fails r = true` models the
database raising on that record's statement, leaving the batch unfinished. -/
def execUpserts (fails : Record → Bool) : Store → List Record → Except Unit Store
  | p, [] => Except.ok p
  | p, r :: rs => if fails r then Except.error () else execUpserts fails (upsertOne p r) rs

/-- `EPUBProcessor._save_to_postgres` (source lines 138-172): execute the
batch, then `self.conn.commit()`; on an exception `self.conn.rollback()` and
re-raise. -/
def save_to_postgres (c : Conn) (fails : Record → Bool) (records : List Record) :
    Conn × Except Unit Unit :=
  match execUpserts fails c.pending records with
  | Except.ok p => (⟨p, p⟩, Except.ok ())
  | Except.error _ => (⟨c.committed, c.committed⟩, Except.error ())

/-- The processing part of a run: `process_directory` over the directory,
then the single final `_save_to_postgres` call (source line 134). A raised
exception aborts the run there — the pair carries the connection as it is
left behind (the committed table state is unchanged on every error path). -/
def processAndSave (chunk_size overlap : Nat) (embed : Embedder) (fails : Record → Bool)
    (docs : List DocInput) (c : Conn) : Conn × Except Err Nat :=
  match process_directory chunk_size overlap embed docs with
  | Except.error e => (c, Except.error e)
  | Except.ok rs =>
    match save_to_postgres c fails rs with
    | (cc, Except.ok _) => (cc, Except.ok rs.length)
    | (cc, Except.error _) => (cc, Except.error Err.persistence)

/-- A full run: `EPUBProcessor.__init__` followed by `process_directory`.
The configuration check is modelled from the spec: the Chunker preconditions
`chunk_size > 0`, `0 ≤ overlap < chunk_size` (spec sections 4.1 and 7) are
enforced when the external `RecursiveCharacterTextSplitter` is constructed
(source lines 32-36, code not in this repository), which happens in
`__init__`, before any document is touched and before the store is opened. -/
def runPipeline (chunk_size overlap : Int) (embed : Embedder) (fails : Record → Bool)
    (docs : List DocInput) (c : Conn) : Conn × Except Err Nat :=
  if chunk_size ≤ 0 ∨ overlap < 0 ∨ overlap ≥ chunk_size then
    (c, Except.error Err.invalidConfig)
  else processAndSave chunk_size.toNat overlap.toNat embed fails docs c

/-! ### Record building -/

theorem buildGo_length (t : String) (cs : List String) :
    ∀ (k : Nat) (es : List Embedding),
      (buildGo t k cs es).length = min cs.length es.length := by
  induction cs with
  | nil => intro k es; simp [buildGo]
  | cons c cs ih =>
    intro k es
    cases es with
    | nil => simp [buildGo]
    | cons e es =>
      simp only [buildGo, List.length_cons, ih]
      omega

theorem buildGo_get (t : String) (cs : List String) :
    ∀ (k i : Nat) (es : List Embedding) (hc : i < cs.length) (he : i < es.length)
      (hb : i < (buildGo t k cs es).length),
      (buildGo t k cs es).get ⟨i, hb⟩ = mkRecord t (k + i) (cs.get ⟨i, hc⟩) (es.get ⟨i, he⟩) := by
  induction cs with
  | nil =>
    intro k i es hc he hb
    exact absurd hc (by simp)
  | cons c cs ih =>
    intro k i es hc he hb
    cases es with
    | nil => exact absurd he (by simp)
    | cons e es =>
      cases i with
      | zero => simp [buildGo]
      | succ i =>
        have hb2 : i < (buildGo t (k + 1) cs es).length := by
          have := hb
          simp only [buildGo, List.length_cons] at this
          omega
        have step := ih (k + 1) i es (by simpa using hc) (by simpa using he) hb2
        have hk : k + 1 + i = k + (i + 1) := by omega
        simpa [buildGo, hk] using step

/-- C1: for every document title `t` and every 0-based chunk position `i`,
the record built for that chunk has `chunk_id` exactly
`t ++ "_chunk_" ++ toString i` (and carries that position as `chunk_num`),
so the key derivation is a deterministic function of the document title and
the position alone — the chunk text and the embedding do not enter it. -/
theorem chunk_id_deterministic (t : String) (chunks : List String) (embs : List Embedding)
    (i : Nat) (h : i < (buildRecords t chunks embs).length) :
    ((buildRecords t chunks embs).get ⟨i, h⟩).chunk_id = t ++ "_chunk_" ++ toString i ∧
    ((buildRecords t chunks embs).get ⟨i, h⟩).chunk_num = i := by
  have h2 : i < (buildGo t 0 chunks embs).length := h
  have hlen := buildGo_length t chunks 0 embs
  rw [hlen, lt_min_iff] at h2
  have key := buildGo_get t chunks 0 i embs h2.1 h2.2 h
  constructor
  · show ((buildGo t 0 chunks embs).get ⟨i, h⟩).chunk_id = t ++ "_chunk_" ++ toString i
    rw [key]
    simp [mkRecord]
  · show ((buildGo t 0 chunks embs).get ⟨i, h⟩).chunk_num = i
    rw [key]
    simp [mkRecord]

theorem chunk_id_deterministic_witness :
    3 < (buildRecords "Foo" ["a", "b", "c", "d"] [[0], [0], [0], [0]]).length ∧
    ((buildRecords "Foo" ["a", "b", "c", "d"] [[0], [0], [0], [0]]).get ⟨3, by decide⟩).chunk_id =
      "Foo_chunk_3" := by
  have h := chunk_id_deterministic "Foo" ["a", "b", "c", "d"] [[0], [0], [0], [0]] 3 (by decide)
  exact ⟨by decide, h.1.trans rfl⟩

/-- C3 counterexample: a batch of 2 chunks paired with 1 embedding vector —
a length mismatch — is absorbed silently: `zip` truncates to the shorter
sequence, one well-formed record is produced and nothing fails, where the
claim demands a fatal integration fault instead of truncation. -/
theorem alignment_truncation_cex :
    buildRecords "T" ["a", "b"] [[1]] = [⟨"T_chunk_0", "a", "T", 0, [1]⟩] ∧
    (["a", "b"] : List String).length ≠ ([[1]] : List Embedding).length := by
  exact ⟨rfl, by decide⟩

/-- C3 (amended): given `n` chunks and `n` embedding vectors in order,
exactly `n` records are produced and the `i`-th record pairs the `i`-th
chunk's text with the `i`-th vector and carries `chunk_num = i`; however a
length mismatch is not a fault: the builder silently truncates to the
shorter of the two sequences (`zip` semantics), producing
`min (length chunks) (length embeddings)` records. -/
theorem alignment_of_records (t : String) (chunks : List String) (embs : List Embedding) :
    (buildRecords t chunks embs).length = min chunks.length embs.length ∧
    (∀ (i : Nat) (hc : i < chunks.length) (he : i < embs.length)
      (hb : i < (buildRecords t chunks embs).length),
      (buildRecords t chunks embs).get ⟨i, hb⟩ =
        mkRecord t i (chunks.get ⟨i, hc⟩) (embs.get ⟨i, he⟩)) := by
  refine ⟨buildGo_length t chunks 0 embs, ?_⟩
  intro i hc he hb
  simpa using buildGo_get t chunks 0 i embs hc he hb

theorem alignment_of_records_witness :
    (buildRecords "B" ["x", "y"] [[1], [2]]).length = min 2 2 ∧
    (buildRecords "B" ["x", "y"] [[1], [2]]).get ⟨1, by decide⟩ = mkRecord "B" 1 "y" [2] := by
  have h := alignment_of_records "B" ["x", "y"] [[1], [2]]
  exact ⟨h.1, h.2 1 (by decide) (by decide) (by decide)⟩

/-! ### Chunk counting -/

theorem splitGo_length (csize dm1 : Nat) :
    ∀ (fuel : Nat) (s : List Char), s ≠ [] → s.length ≤ fuel →
      (splitGo csize dm1 fuel s).length = (s.length - 1) / (dm1 + 1) + 1 := by
  intro fuel
  induction fuel with
  | zero =>
    intro s hne hle
    exact absurd (List.length_eq_zero.mp (Nat.le_zero.mp hle)) hne
  | succ fuel ih =>
    intro s hne hle
    cases s with
    | nil => exact absurd rfl hne
    | cons c cs =>
      have hlc : (c :: cs).length = cs.length + 1 := by simp
      by_cases hlen : (c :: cs).length ≤ dm1 + 1
      · have e1 : splitGo csize dm1 (fuel + 1) (c :: cs) = [(c :: cs).take csize] := by
          simp only [splitGo, if_pos hlen]
        rw [e1]
        have h0 : ((c :: cs).length - 1) / (dm1 + 1) = 0 :=
          Nat.div_eq_of_lt (by omega)
        rw [h0]
        simp
      · have e1 : splitGo csize dm1 (fuel + 1) (c :: cs) =
            (c :: cs).take csize :: splitGo csize dm1 fuel ((c :: cs).drop (dm1 + 1)) := by
          simp only [splitGo, if_neg hlen]
        have hdl : ((c :: cs).drop (dm1 + 1)).length = (c :: cs).length - (dm1 + 1) := by
          simp
        have hdrop_ne : (c :: cs).drop (dm1 + 1) ≠ [] := by
          rw [← List.length_pos, hdl]
          omega
        have hdrop_le : ((c :: cs).drop (dm1 + 1)).length ≤ fuel := by
          rw [hdl]
          omega
        have step := ih ((c :: cs).drop (dm1 + 1)) hdrop_ne hdrop_le
        rw [e1, List.length_cons, step, hdl]
        have harith : (c :: cs).length - (dm1 + 1) - 1 + (dm1 + 1) = (c :: cs).length - 1 := by
          omega
        rw [← harith, Nat.add_div_right _ (Nat.succ_pos dm1)]

/-- C4 counterexample: the one-character whitespace text `" "` has length
`1 > 0` and a valid configuration (`chunk_size = 512 > overlap = 64 ≥ 0`),
yet splitting yields `0` chunks, not the claimed
`ceil(1 / (512 - 64)) = 1` and not at least `1`. -/
theorem chunk_count_cex :
    0 < (" " : String).length ∧
    (split 512 64 " ").length = 0 ∧
    ((" " : String).length + (512 - 64) - 1) / (512 - 64) = 1 := by
  exact ⟨by decide, rfl, by decide⟩

/-- C4 (amended): for every text whose content is not exclusively whitespace
and every valid configuration `chunk_size > overlap ≥ 0`, splitting produces
exactly `ceil(L / (chunk_size - overlap))` chunks, where `L` is the length of
the text, and hence at least one chunk; for empty or whitespace-only input it
instead produces zero chunks (the spec's own edge-case rule). -/
theorem chunk_count (chunk_size overlap : Nat) (text : String)
    (hov : overlap < chunk_size) (hb : isBlank text = false) :
    (split chunk_size overlap text).length =
      (text.length + (chunk_size - overlap) - 1) / (chunk_size - overlap) ∧
    1 ≤ (split chunk_size overlap text).length := by
  have hne : text.data ≠ [] := by
    intro hnil
    rw [isBlank, hnil] at hb
    simp at hb
  have hnotblank : ¬ (isBlank text = true) := by simp [hb]
  have hd : chunk_size - overlap - 1 + 1 = chunk_size - overlap := by omega
  have hlen := splitGo_length chunk_size (chunk_size - overlap - 1) text.data.length
    text.data hne (Nat.le_refl _)
  have hpos : 0 < text.data.length := List.length_pos.mpr hne
  have hlen2 : (split chunk_size overlap text).length =
      (text.data.length - 1) / (chunk_size - overlap) + 1 := by
    rw [split, if_neg hnotblank, List.length_map, hlen, hd]
  have htl : text.length = text.data.length := rfl
  constructor
  · rw [hlen2, htl]
    have harith : text.data.length + (chunk_size - overlap) - 1 =
        text.data.length - 1 + (chunk_size - overlap) := by omega
    rw [harith, Nat.add_div_right (text.data.length - 1) (by omega)]
  · rw [hlen2]
    exact Nat.le_add_left 1 _

theorem chunk_count_witness :
    64 < 512 ∧ isBlank "abcdefgh" = false ∧
    (split 512 64 "abcdefgh").length =
      (("abcdefgh" : String).length + (512 - 64) - 1) / (512 - 64) ∧
    1 ≤ (split 512 64 "abcdefgh").length := by
  have h := chunk_count 512 64 "abcdefgh" (by decide) (by decide)
  exact ⟨by decide, by decide, h.1, h.2⟩

/-! ### Upsert semantics -/

theorem chunkIds_upsertOne (s : Store) (r : Record) :
    chunkIds (upsertOne s r) =
      if r.chunk_id ∈ chunkIds s then chunkIds s else chunkIds s ++ [r.chunk_id] := by
  by_cases h : r.chunk_id ∈ chunkIds s
  · rw [upsertOne, if_pos h, if_pos h, chunkIds, chunkIds, List.map_map]
    apply List.map_congr_left
    intro row _
    by_cases hrow : row.chunk_id = r.chunk_id
    · simp [hrow]
    · simp [hrow]
  · rw [upsertOne, if_neg h, if_neg h, chunkIds, chunkIds, List.map_append]
    rfl

theorem nodup_chunkIds_upsertOne (s : Store) (r : Record)
    (hnd : (chunkIds s).Nodup) : (chunkIds (upsertOne s r)).Nodup := by
  rw [chunkIds_upsertOne]
  by_cases h : r.chunk_id ∈ chunkIds s
  · rwa [if_pos h]
  · rw [if_neg h]
    simp [List.nodup_append, hnd, h]

theorem mem_chunkIds_upsertOne (k : String) (s : Store) (r : Record) :
    k ∈ chunkIds (upsertOne s r) ↔ k ∈ chunkIds s ∨ k = r.chunk_id := by
  rw [chunkIds_upsertOne]
  by_cases h : r.chunk_id ∈ chunkIds s
  · rw [if_pos h]
    constructor
    · exact Or.inl
    · rintro (hk | rfl)
      · exact hk
      · exact h
  · rw [if_neg h]
    simp

theorem upsertBatch_cons (s : Store) (r : Record) (rs : List Record) :
    upsertBatch s (r :: rs) = upsertBatch (upsertOne s r) rs := rfl

theorem mem_chunkIds_upsertBatch (k : String) (rs : List Record) :
    ∀ s : Store, k ∈ chunkIds (upsertBatch s rs) ↔ k ∈ chunkIds s ∨ k ∈ chunkIds rs := by
  induction rs with
  | nil => intro s; simp [upsertBatch, chunkIds]
  | cons r rs ih =>
    intro s
    rw [upsertBatch_cons, ih (upsertOne s r), mem_chunkIds_upsertOne]
    simp only [chunkIds, List.map_cons, List.mem_cons]
    tauto

theorem length_upsertOne_of_mem (s : Store) (r : Record)
    (h : r.chunk_id ∈ chunkIds s) : (upsertOne s r).length = s.length := by
  rw [upsertOne, if_pos h, List.length_map]

theorem upsertBatch_stable (rs : List Record) :
    ∀ s : Store, (∀ r ∈ rs, r.chunk_id ∈ chunkIds s) →
      chunkIds (upsertBatch s rs) = chunkIds s ∧ (upsertBatch s rs).length = s.length := by
  induction rs with
  | nil => intro s _; exact ⟨rfl, rfl⟩
  | cons r rs ih =>
    intro s h
    have hr : r.chunk_id ∈ chunkIds s := h r (List.mem_cons_self r rs)
    have h1 : chunkIds (upsertOne s r) = chunkIds s := by
      rw [chunkIds_upsertOne, if_pos hr]
    rw [upsertBatch_cons]
    obtain ⟨ha, hb⟩ := ih (upsertOne s r) (fun r2 hr2 => by
      rw [h1]
      exact h r2 (List.mem_cons_of_mem r hr2))
    exact ⟨ha.trans h1, hb.trans (length_upsertOne_of_mem s r hr)⟩

theorem filter_map_replace (r : Record) :
    ∀ s : Store, r.chunk_id ∈ chunkIds s → (chunkIds s).Nodup →
      (s.map (fun row => if row.chunk_id = r.chunk_id then r else row)).filter
        (fun row => row.chunk_id == r.chunk_id) = [r] := by
  intro s
  induction s with
  | nil => intro hmem _; simp [chunkIds] at hmem
  | cons a tl ih =>
    intro hmem hnd
    have hnd2 : (chunkIds tl).Nodup ∧ a.chunk_id ∉ chunkIds tl := by
      rw [chunkIds, List.map_cons, List.nodup_cons] at hnd
      exact ⟨hnd.2, hnd.1⟩
    by_cases ha : a.chunk_id = r.chunk_id
    · have htl : ∀ row ∈ tl, row.chunk_id ≠ r.chunk_id := by
        intro row hrow heq
        exact hnd2.2 (ha ▸ heq ▸ List.mem_map_of_mem (fun x => x.chunk_id) hrow)
      have hmap : tl.map (fun row => if row.chunk_id = r.chunk_id then r else row) = tl := by
        conv_rhs => rw [← List.map_id tl]
        apply List.map_congr_left
        intro row hrow
        rw [if_neg (htl row hrow)]
        rfl
      rw [List.map_cons, if_pos ha, hmap]
      rw [List.filter_cons_of_pos (by simp)]
      have : tl.filter (fun row => row.chunk_id == r.chunk_id) = [] := by
        rw [List.filter_eq_nil_iff]
        intro row hrow
        simpa using htl row hrow
      rw [this]
    · have hmem2 : r.chunk_id ∈ chunkIds tl := by
        rw [chunkIds, List.map_cons, List.mem_cons] at hmem
        rcases hmem with h | h
        · exact absurd h.symm ha
        · exact h
      rw [List.map_cons, if_neg ha,
        List.filter_cons_of_neg (by simpa using ha)]
      exact ih hmem2 hnd2.1

theorem filter_upsertOne (s : Store) (r : Record) (hnd : (chunkIds s).Nodup) :
    (upsertOne s r).filter (fun row => row.chunk_id == r.chunk_id) = [r] := by
  by_cases hmem : r.chunk_id ∈ chunkIds s
  · rw [upsertOne, if_pos hmem]
    exact filter_map_replace r s hmem hnd
  · rw [upsertOne, if_neg hmem, List.filter_append]
    have h1 : s.filter (fun row => row.chunk_id == r.chunk_id) = [] := by
      rw [List.filter_eq_nil_iff]
      intro row hrow
      simp only [beq_iff_eq]
      intro heq
      exact hmem (heq ▸ List.mem_map_of_mem (fun x => x.chunk_id) hrow)
    rw [h1, List.filter_cons_of_pos (by simp), List.filter_nil]
    rfl

/-- C2: the upsert is replace-on-conflict and re-ingestion is idempotent.
First conjunct: executing the batch upsert twice, the second time with a
record that reuses a `chunk_id` but carries different data, leaves exactly
one row for that `chunk_id` in the table (whose `chunk_id` column held no
duplicates, as the primary key guarantees) and that row is the second call's
record. Second and third conjunct: replaying any batch `rs` on the store it
produced changes neither the set of `chunk_id`s nor the row count — re-running
the pipeline on unchanged input adds no duplicate rows. -/
theorem upsert_replace_idem (s : Store) (r1 r2 : Record) (rs : List Record)
    (_hid : r1.chunk_id = r2.chunk_id) (hnd : (chunkIds s).Nodup) :
    (upsertBatch (upsertBatch s [r1]) [r2]).filter
      (fun row => row.chunk_id == r2.chunk_id) = [r2] ∧
    (∀ k, k ∈ chunkIds (upsertBatch (upsertBatch s rs) rs) ↔
      k ∈ chunkIds (upsertBatch s rs)) ∧
    (upsertBatch (upsertBatch s rs) rs).length = (upsertBatch s rs).length := by
  refine ⟨?_, ?_, ?_⟩
  · show (upsertOne (upsertOne s r1) r2).filter (fun row => row.chunk_id == r2.chunk_id) = [r2]
    exact filter_upsertOne (upsertOne s r1) r2 (nodup_chunkIds_upsertOne s r1 hnd)
  · intro k
    rw [mem_chunkIds_upsertBatch k rs (upsertBatch s rs)]
    constructor
    · rintro (h | h)
      · exact h
      · exact (mem_chunkIds_upsertBatch k rs s).mpr (Or.inr h)
    · exact Or.inl
  · refine (upsertBatch_stable rs (upsertBatch s rs) ?_).2
    intro r hr
    exact (mem_chunkIds_upsertBatch r.chunk_id rs s).mpr
      (Or.inr (List.mem_map_of_mem (fun x => x.chunk_id) hr))

theorem upsert_replace_idem_witness :
    (upsertBatch (upsertBatch [] [⟨"X", "old", "B", 0, [1]⟩]) [⟨"X", "new", "B", 0, [2]⟩]).filter
      (fun row => row.chunk_id == "X") = [⟨"X", "new", "B", 0, [2]⟩] ∧
    (upsertBatch (upsertBatch [] [⟨"X", "old", "B", 0, [1]⟩]) [⟨"X", "old", "B", 0, [1]⟩]).length =
      (upsertBatch [] [⟨"X", "old", "B", 0, [1]⟩]).length := by
  have h := upsert_replace_idem [] ⟨"X", "old", "B", 0, [1]⟩ ⟨"X", "new", "B", 0, [2]⟩
    [⟨"X", "old", "B", 0, [1]⟩] rfl (by decide)
  exact ⟨h.1, h.2.2⟩

/-! ### The processing loop -/

theorem processDoc_skip (chunk_size overlap : Nat) (embed : Embedder) (d : DocInput)
    (h : extract_text_from_epub d = "") :
    processDoc chunk_size overlap embed d = Except.ok [] := by
  rw [processDoc]
  simp only [h]
  rfl

theorem process_directory_cons (chunk_size overlap : Nat) (embed : Embedder)
    (d : DocInput) (ds : List DocInput) :
    process_directory chunk_size overlap embed (d :: ds) =
      match processDoc chunk_size overlap embed d with
      | Except.error e => Except.error e
      | Except.ok rs =>
        match process_directory chunk_size overlap embed ds with
        | Except.error e => Except.error e
        | Except.ok rest => Except.ok (rs ++ rest) := rfl

theorem process_directory_skip (chunk_size overlap : Nat) (embed : Embedder)
    (d : DocInput) (h : processDoc chunk_size overlap embed d = Except.ok []) :
    ∀ l1 l2 : List DocInput,
      process_directory chunk_size overlap embed (l1 ++ d :: l2) =
        process_directory chunk_size overlap embed (l1 ++ l2) := by
  intro l1
  induction l1 with
  | nil =>
    intro l2
    rw [List.nil_append, List.nil_append, process_directory_cons, h]
    cases hrec : process_directory chunk_size overlap embed l2 with
    | error e => rfl
    | ok rest => simp
  | cons a l1 ih =>
    intro l2
    rw [List.cons_append, List.cons_append, process_directory_cons, process_directory_cons,
      ih l2]

theorem processDoc_error_kind (chunk_size overlap : Nat) (embed : Embedder) (d : DocInput)
    (e : Err) (h : processDoc chunk_size overlap embed d = Except.error e) :
    e = Err.embedding := by
  rw [processDoc] at h
  by_cases hfull : extract_text_from_epub d = ""
  · simp only [hfull, if_pos] at h
    cases h
  · simp only [if_neg hfull] at h
    cases hembed : embed (split chunk_size overlap (extract_text_from_epub d)) with
    | error u =>
      rw [hembed] at h
      cases h
      rfl
    | ok vs =>
      rw [hembed] at h
      cases h

theorem process_directory_error_of_mem (chunk_size overlap : Nat) (embed : Embedder)
    (d : DocInput) (e : Err)
    (herr : processDoc chunk_size overlap embed d = Except.error e) :
    ∀ docs : List DocInput, d ∈ docs →
      process_directory chunk_size overlap embed docs = Except.error Err.embedding := by
  intro docs
  induction docs with
  | nil => intro hmem; cases hmem
  | cons a ds ih =>
    intro hmem
    rw [process_directory_cons]
    rcases List.mem_cons.mp hmem with rfl | hmem2
    · rw [herr, processDoc_error_kind chunk_size overlap embed d e herr]
    · cases ha : processDoc chunk_size overlap embed a with
      | error e2 => rw [processDoc_error_kind chunk_size overlap embed a e2 ha]
      | ok rs => rw [ih hmem2]

/-- C5 counterexample: two documents, the embedding model raising on the
first document's batch and fine on the second. The claim says the first
document is skipped and the run continues with the next document; the code
has no handler around `encode`, so the whole run aborts with the embedding
error — shown by the first conjunct — even though the second document alone
would have produced one persisted record — shown by the second conjunct. The
aborted run persists nothing at all (the single `_save_to_postgres` call at
the end is never reached, third conjunct: the connection is left untouched). -/
theorem embedding_failure_cex :
    process_directory 2 0
      (fun chunks => if chunks = ["aa"] then Except.error ()
        else Except.ok (chunks.map (fun _ => [1])))
      [⟨"A", Except.ok "aa"⟩, ⟨"B", Except.ok "bb"⟩] = Except.error Err.embedding ∧
    process_directory 2 0
      (fun chunks => if chunks = ["aa"] then Except.error ()
        else Except.ok (chunks.map (fun _ => [1])))
      [⟨"B", Except.ok "bb"⟩] = Except.ok [⟨"B_chunk_0", "bb", "B", 0, [1]⟩] ∧
    processAndSave 2 0
      (fun chunks => if chunks = ["aa"] then Except.error ()
        else Except.ok (chunks.map (fun _ => [1])))
      (fun _ => false)
      [⟨"A", Except.ok "aa"⟩, ⟨"B", Except.ok "bb"⟩] ⟨[], []⟩ =
      (⟨[], []⟩, Except.error Err.embedding) := by
  exact ⟨rfl, rfl, rfl⟩

/-- C5 (amended): if the embedding model raises for one document, the
exception surfaces (it is never swallowed and zero vectors are never
substituted — the result is the error, not a record list), but the run does
not continue with the next document: the whole directory run aborts with the
embedding error and nothing at all is persisted, the store being left exactly
as it was. -/
theorem embedding_failure_aborts_run (chunk_size overlap : Nat) (embed : Embedder)
    (fails : Record → Bool) (docs : List DocInput) (d : DocInput) (c : Conn)
    (hmem : d ∈ docs) (hne : extract_text_from_epub d ≠ "")
    (hemb : embed (split chunk_size overlap (extract_text_from_epub d)) = Except.error ()) :
    process_directory chunk_size overlap embed docs = Except.error Err.embedding ∧
    processAndSave chunk_size overlap embed fails docs c = (c, Except.error Err.embedding) := by
  have herr : processDoc chunk_size overlap embed d = Except.error Err.embedding := by
    rw [processDoc]
    simp only [if_neg hne, hemb]
  have hdir := process_directory_error_of_mem chunk_size overlap embed d Err.embedding
    herr docs hmem
  refine ⟨hdir, ?_⟩
  rw [processAndSave, hdir]

theorem embedding_failure_aborts_run_witness :
    process_directory 3 1
      (fun chunks => if chunks = ["cc"] then Except.error ()
        else Except.ok (chunks.map (fun _ => [2])))
      [⟨"C", Except.ok "cc"⟩] = Except.error Err.embedding ∧
    processAndSave 3 1
      (fun chunks => if chunks = ["cc"] then Except.error ()
        else Except.ok (chunks.map (fun _ => [2])))
      (fun _ => false) [⟨"C", Except.ok "cc"⟩] ⟨[], []⟩ =
      (⟨[], []⟩, Except.error Err.embedding) := by
  exact embedding_failure_aborts_run 3 1
    (fun chunks => if chunks = ["cc"] then Except.error ()
      else Except.ok (chunks.map (fun _ => [2])))
    (fun _ => false) [⟨"C", Except.ok "cc"⟩] ⟨"C", Except.ok "cc"⟩ ⟨[], []⟩
    (List.mem_singleton.mpr rfl) (by decide) rfl

/-- C6: a document whose extracted text is empty or whitespace-only yields no
chunks and contributes zero records, and the loop is not aborted: the run over
the directory with the document present equals the run with it removed. (For
whitespace-only text the code still calls `encode` on the empty chunk list;
the model returns an empty batch without raising, the `he` hypothesis.) -/
theorem blank_doc_skipped (chunk_size overlap : Nat) (embed : Embedder) (d : DocInput)
    (vs : List Embedding) (l1 l2 : List DocInput)
    (hb : isBlank (extract_text_from_epub d) = true)
    (he : embed [] = Except.ok vs) :
    processDoc chunk_size overlap embed d = Except.ok [] ∧
    process_directory chunk_size overlap embed (l1 ++ d :: l2) =
      process_directory chunk_size overlap embed (l1 ++ l2) := by
  have hdoc : processDoc chunk_size overlap embed d = Except.ok [] := by
    by_cases hfull : extract_text_from_epub d = ""
    · exact processDoc_skip chunk_size overlap embed d hfull
    · rw [processDoc]
      simp only [if_neg hfull]
      have hsplit : split chunk_size overlap (extract_text_from_epub d) = [] := by
        rw [split, if_pos hb]
      rw [hsplit, he]
      rfl
  exact ⟨hdoc, process_directory_skip chunk_size overlap embed d hdoc l1 l2⟩

theorem blank_doc_skipped_witness :
    processDoc 2 0 (fun _ => Except.ok []) ⟨"W", Except.ok "   "⟩ = Except.ok [] ∧
    process_directory 2 0 (fun _ => Except.ok [])
      [⟨"W", Except.ok "   "⟩, ⟨"B", Except.ok "bb"⟩] =
      process_directory 2 0 (fun _ => Except.ok []) [⟨"B", Except.ok "bb"⟩] :=
  blank_doc_skipped 2 0 (fun _ => Except.ok []) ⟨"W", Except.ok "   "⟩ [] []
    [⟨"B", Except.ok "bb"⟩] (by decide) rfl

/-- C9: a document whose extraction raises is absorbed —
`extract_text_from_epub` catches the exception and returns the empty string,
the loop then skips the document — so it contributes zero records and every
other document of the directory is processed exactly as if the failed one
were absent. -/
theorem extraction_failure_skipped (chunk_size overlap : Nat) (embed : Embedder)
    (d : DocInput) (l1 l2 : List DocInput) (h : d.raw = Except.error ()) :
    processDoc chunk_size overlap embed d = Except.ok [] ∧
    process_directory chunk_size overlap embed (l1 ++ d :: l2) =
      process_directory chunk_size overlap embed (l1 ++ l2) := by
  have hfull : extract_text_from_epub d = "" := by
    unfold extract_text_from_epub
    rw [h]
  have hdoc := processDoc_skip chunk_size overlap embed d hfull
  exact ⟨hdoc, process_directory_skip chunk_size overlap embed d hdoc l1 l2⟩

theorem extraction_failure_skipped_witness :
    processDoc 2 0 (fun chunks => Except.ok (chunks.map (fun _ => [1])))
      ⟨"Bad", Except.error ()⟩ = Except.ok [] ∧
    process_directory 2 0 (fun chunks => Except.ok (chunks.map (fun _ => [1])))
      [⟨"Bad", Except.error ()⟩, ⟨"B", Except.ok "bb"⟩] =
      process_directory 2 0 (fun chunks => Except.ok (chunks.map (fun _ => [1])))
        [⟨"B", Except.ok "bb"⟩] :=
  extraction_failure_skipped 2 0 (fun chunks => Except.ok (chunks.map (fun _ => [1])))
    ⟨"Bad", Except.error ()⟩ [] [⟨"B", Except.ok "bb"⟩] rfl

/-- C7: for every configuration violating the Chunker preconditions
(`chunk_size ≤ 0`, `overlap < 0` or `overlap ≥ chunk_size`), the run fails
with the invalid-configuration error before any document is processed and
before anything reaches the store: the connection is returned exactly as it
was, whatever the directory contains. -/
theorem invalid_config_aborts (chunk_size overlap : Int) (embed : Embedder)
    (fails : Record → Bool) (docs : List DocInput) (c : Conn)
    (h : chunk_size ≤ 0 ∨ overlap < 0 ∨ overlap ≥ chunk_size) :
    runPipeline chunk_size overlap embed fails docs c =
      (c, Except.error Err.invalidConfig) := by
  rw [runPipeline, if_pos h]

theorem invalid_config_aborts_witness :
    runPipeline 0 0 (fun _ => Except.ok []) (fun _ => false) [⟨"A", Except.ok "aa"⟩]
      ⟨[], []⟩ = (⟨[], []⟩, Except.error Err.invalidConfig) :=
  invalid_config_aborts 0 0 (fun _ => Except.ok []) (fun _ => false)
    [⟨"A", Except.ok "aa"⟩] ⟨[], []⟩ (Or.inr (Or.inr (le_refl 0)))

/-! ### Transactional persistence -/

theorem execUpserts_ok (fails : Record → Bool) :
    ∀ (rs : List Record) (p p2 : Store),
      execUpserts fails p rs = Except.ok p2 → p2 = upsertBatch p rs := by
  intro rs
  induction rs with
  | nil =>
    intro p p2 h
    cases h
    rfl
  | cons r rs ih =>
    intro p p2 h
    simp only [execUpserts] at h
    cases hf : fails r with
    | true =>
      rw [hf] at h
      simp at h
    | false =>
      rw [hf] at h
      simp only [Bool.false_eq_true, if_false] at h
      exact ih (upsertOne p r) p2 h

/-- C8: batch persistence is atomic. On any failure inside the batch the
transaction is rolled back in full: the committed table state after the
failed `_save_to_postgres` call equals the state before it (and the pending
state is reset to it) no matter how many statements of the batch had already
run. On success the commit publishes exactly the whole batch applied in
order. The hypothesis says no transaction was already half-open at the call. -/
theorem save_batch_atomic (c : Conn) (fails : Record → Bool) (records : List Record)
    (hcp : c.pending = c.committed) :
    ((save_to_postgres c fails records).2 = Except.error () →
      (save_to_postgres c fails records).1.committed = c.committed ∧
      (save_to_postgres c fails records).1.pending = c.committed) ∧
    ((save_to_postgres c fails records).2 = Except.ok () →
      (save_to_postgres c fails records).1.committed = upsertBatch c.committed records) := by
  have e : save_to_postgres c fails records =
      match execUpserts fails c.pending records with
      | Except.ok p => (⟨p, p⟩, Except.ok ())
      | Except.error _ => (⟨c.committed, c.committed⟩, Except.error ()) := rfl
  cases hexec : execUpserts fails c.pending records with
  | ok p =>
    rw [e, hexec]
    refine ⟨?_, ?_⟩
    · intro h
      cases h
    · intro _
      show p = upsertBatch c.committed records
      rw [← hcp]
      exact execUpserts_ok fails records c.pending p hexec
  | error u =>
    rw [e, hexec]
    refine ⟨?_, ?_⟩
    · intro _
      exact ⟨rfl, rfl⟩
    · intro h
      cases h

theorem save_batch_atomic_witness :
    (save_to_postgres ⟨[], []⟩ (fun r => r.chunk_id == "bad")
      [⟨"good", "c", "B", 0, [1]⟩, ⟨"bad", "c", "B", 1, [1]⟩]).2 = Except.error () ∧
    (save_to_postgres ⟨[], []⟩ (fun r => r.chunk_id == "bad")
      [⟨"good", "c", "B", 0, [1]⟩, ⟨"bad", "c", "B", 1, [1]⟩]).1.committed = [] := by
  have h := save_batch_atomic ⟨[], []⟩ (fun r => r.chunk_id == "bad")
    [⟨"good", "c", "B", 0, [1]⟩, ⟨"bad", "c", "B", 1, [1]⟩] rfl
  exact ⟨rfl, (h.1 rfl).1⟩
